import Mathlib

/-!
Shallow embedding of the ema2ambisonics repository:
`src/utils.py`, `src/ema_radial_filters.py`,
`src/get_soundfield_coeffs_from_ema.py`.

Modelling conventions:
* floating-point numbers are exact reals; complex float arrays that may hold
  NaN entries are functions into `Option ℂ`, with `none` standing for NaN;
* external collaborators (scipy spherical Bessel functions `jn`/`yn`, the
  spherical-harmonic evaluator `sph_harm`, the inverse real FFT and the
  pyfar fractional time shift) are abstract function parameters;
* Python exceptions are `Except String`.
-/

namespace Ema2Ambisonics

open Real

/-- The regularization / limiting type argument of the Python code,
`invalid` standing for any string other than the three accepted ones. -/
inductive RegType where
  | soft
  | hard
  | tikhonov
  | invalid
  deriving DecidableEq, Repr

/-! ## utils.py -/

/-- Embedding of `utils._spherical_hankel_function`: the spherical Hankel function of
order `nu` and kind `k`, `j_nu(z) + i*sign*y_nu(z)` with `sign = 1` for the
first and `-1` for the second kind; `jn`, `yn` are the scipy spherical
Bessel collaborators.  A kind other than 1 or 2 raises a `ValueError`. -/
noncomputable def spherical_hankel_function (jn yn : ℕ → ℝ → ℝ) (nu : ℕ)
    (k : ℤ) (z : ℝ) : Except String ℂ :=
  if k = 1 ∨ k = 2 then
    let sign : ℝ := if k = 1 then 1 else -1
    .ok (Complex.ofReal (jn nu z) + Complex.I * sign * yn nu z)
  else
    .error "k must be 1 or 2."

/-- Embedding of `utils._derivative_sph_hankel`: derivative of the spherical Hankel
function with respect to its argument, via the three-term recurrence. -/
noncomputable def derivative_sph_hankel (jn yn : ℕ → ℝ → ℝ) (n : ℕ)
    (k : ℤ) (z : ℝ) : Except String ℂ :=
  if n = 0 then
    (spherical_hankel_function jn yn 1 k z).map (fun h => -h)
  else do
    let hm ← spherical_hankel_function jn yn (n - 1) k z
    let hp ← spherical_hankel_function jn yn (n + 1) k z
    .ok ((1 / (2 * (n : ℂ) + 1)) * ((n : ℂ) * hm - ((n : ℂ) + 1) * hp))

/-- dB-to-linear-amplitude conversion `10^(limit_db/20)` used by both
`utils._limiting` and `utils._tikhonov_regularization`. -/
noncomputable def limitLinear (limit_db : ℝ) : ℝ := (10 : ℝ) ^ (limit_db / 20)

/-- Element-wise body of `utils._limiting`: soft or hard limiting of one
complex entry; any other type string leaves the entry unchanged (the Python
function falls through and returns the data unmodified). -/
noncomputable def limitingEl (ty : RegType) (limit_db : ℝ) (z : ℂ) : ℂ :=
  let limit := limitLinear limit_db
  if ty = RegType.soft then
    Complex.ofReal ((2 * limit) / Real.pi) * (z / Complex.ofReal (Complex.abs z)) *
      Complex.ofReal (Real.arctan (Real.pi / (2 * limit) * Complex.abs z))
  else if ty = RegType.hard then
    if Complex.abs z > limit then
      z / Complex.ofReal (Complex.abs z) * Complex.ofReal limit
    else z
  else z

/-- Embedding of `utils._limiting` on a whole array (numpy broadcasts element-wise). -/
noncomputable def limiting {ι : Type} (data : ι → ℂ) (ty : RegType)
    (limit_db : ℝ) : ι → ℂ :=
  fun i => limitingEl ty limit_db (data i)

/-- Element-wise body of `utils._tikhonov_regularization`:
`conj(z) / (|z|^2 + lambda^2)` with
`lambda^2 = (1 - sqrt(1 - 1/L^2)) / (1 + sqrt(1 - 1/L^2))`. -/
noncomputable def tikhonovEl (limit_db : ℝ) (z : ℂ) : ℂ :=
  let limit := limitLinear limit_db
  let lambda_squared :=
    (1 - Real.sqrt (1 - 1 / limit ^ 2)) / (1 + Real.sqrt (1 - 1 / limit ^ 2))
  (starRingEnd ℂ) z / Complex.ofReal (Complex.abs z ^ 2 + lambda_squared)

/-- The spec-side closed form `h_n(z) = j_n(z) + i*sign*y_n(z)` of the
spherical Hankel function of kind `k`, used to state claim C5. -/
noncomputable def hankelValue (jn yn : ℕ → ℝ → ℝ) (k : ℤ) (nu : ℕ)
    (z : ℝ) : ℂ :=
  Complex.ofReal (jn nu z) + Complex.I * (if k = 1 then (1 : ℝ) else -1) * yn nu z

/-! ## NaN substitution (ema_radial_filters.py lines 78-81 and 105-109)

Complex float arrays that may hold NaN entries are modeled as functions into
`Option ℂ`, `none` standing for NaN. -/

/-- Model of `np.roll(v, shift, axis=-1)` on one length-`F` row: entry `j` of the
rolled array is entry `(j - shift) mod F` of the original. -/
def np_roll {α : Type} (v : ℕ → α) (F : ℕ) (shift : ℤ) (j : ℕ) : α :=
  v (((j : ℤ) - shift) % (F : ℤ)).toNat

/-- Model of `np.abs` on a possibly-NaN complex entry: NaN maps to NaN, a number maps
to its magnitude (stored back into a complex array). -/
noncomputable def nanAbs (x : Option ℂ) : Option ℂ :=
  x.map (fun z => Complex.ofReal (Complex.abs z))

/-- The NaN-substitution `v[isnan(v)] = np.abs(np.roll(v, -1, axis=-1))[isnan(v)]`
of `radial_filters_ema`, applied to one length-`F` row. -/
noncomputable def nanPatch (v : ℕ → Option ℂ) (F : ℕ) (j : ℕ) : Option ℂ :=
  match v j with
  | none => nanAbs (np_roll v F (-1) j)
  | some z => some z

/-! ## ema_radial_filters.py -/

/-- The pyfar.Signal container: channel count, samples per channel,
sampling rate and the time-domain data. -/
structure Signal where
  channels : ℕ
  n_samples : ℕ
  sampling_rate : ℝ
  time : ℕ → ℕ → ℝ

/-- The `mode` argument of `pyfar.dsp.fractional_time_shift`. -/
inductive ShiftMode where
  | linear
  | cyclic
  deriving DecidableEq, Repr

/-- External numeric collaborators of the filter-design pipeline: the scipy
spherical Bessel functions, `scipy.special.sph_harm(m, n, 0, pi/2)`, the
inverse real FFT acting on one row of `F` bins, and the pyfar fractional
time shift. -/
structure Env where
  jn : ℕ → ℝ → ℝ
  yn : ℕ → ℝ → ℝ
  sph_harm : ℤ → ℕ → ℂ
  irfft : (ℕ → Option ℂ) → ℕ → ℕ → ℝ
  fractional_time_shift : Signal → ℝ → ShiftMode → Signal

/-- The arguments of `radial_filters_ema`, with the dynamic-typing facts the
validation inspects made explicit: whether `R` and `limit_dB` are numeric
scalars (`isinstance(..., numbers.Number)`) and whether the float `R` is
finite; the field `R` holds the numeric value when there is one. -/
structure DesignArgs where
  R_isNumber : Bool
  R_isFinite : Bool
  R : ℝ
  limit_isNumber : Bool
  limit_dB : ℝ
  hankel_type : ℤ
  regularization_type : RegType
  sampling_rate : ℝ

/-- The epsilon nudge `5 * np.finfo(float).eps` added to `kR` (line 70). -/
noncomputable def epsNudge : ℝ := 5 * 2 ^ (-(52 : ℤ))

/-- The nudged dimensionless argument `kR = (2*pi*f/343) * R + 5*eps` (lines 68-70). -/
noncomputable def kRval (f : ℕ → ℝ) (R : ℝ) (j : ℕ) : ℝ :=
  2 * Real.pi * f j / 343 * R + epsNudge

/-- One entry of the per-order term bank `b_n` before NaN substitution
(line 76): `-4*pi * i^n * (i/kR^2) * (1/h_n'(kR))`. -/
noncomputable def bTerm (E : Env) (f : ℕ → ℝ) (R : ℝ) (hankel_type : ℤ)
    (n j : ℕ) : Option ℂ :=
  (derivative_sph_hankel E.jn E.yn n hankel_type (kRval f R j)).toOption.map
    (fun hd =>
      Complex.ofReal (-4 * Real.pi) * Complex.I ^ n *
        (Complex.I / Complex.ofReal (kRval f R j) ^ 2) * (1 / hd))

/-- The `b_n` bank after the NaN substitution of lines 78-81. -/
noncomputable def bPatched (E : Env) (f : ℕ → ℝ) (R : ℝ) (hankel_type : ℤ)
    (F : ℕ) (n j : ℕ) : Option ℂ :=
  nanPatch (bTerm E f R hankel_type n) F j

/-- NaN-propagating addition on float entries. -/
def ocAdd (a b : Option ℂ) : Option ℂ := Option.map₂ (· + ·) a b

/-- NaN-propagating multiplication on float entries. -/
def ocMul (a b : Option ℂ) : Option ℂ := Option.map₂ (· * ·) a b

/-- The accumulation loop of lines 86-89 for one degree `m` and one bin `j`:
`for n_prime in range(abs(m), N+1): acc += b[n_prime] * sph_harm(m, n_prime, 0, pi/2)**2`. -/
noncomputable def modeRowAccum (E : Env) (b : ℕ → ℕ → Option ℂ) (N : ℕ)
    (m : ℤ) (j : ℕ) : Option ℂ :=
  (List.range' m.natAbs (N + 1 - m.natAbs)).foldl
    (fun acc n_prime =>
      ocAdd acc (ocMul (b n_prime j) (some (E.sph_harm m n_prime ^ 2))))
    (some 0)

/-- The bank `radial_filters`, the per-degree forward response: the loop writes row
`m + n` where `n` is the leftover loop variable of lines 74-76, equal to `N`,
so row `r` holds the accumulated response of degree `m = r - N`. -/
noncomputable def radialFiltersBank (E : Env) (b : ℕ → ℕ → Option ℂ) (N : ℕ)
    (r j : ℕ) : Option ℂ :=
  modeRowAccum E b N ((r : ℤ) - N) j

/-- The inversion `inverse_radial_filter = 1 / radial_filters` (line 92), element-wise. -/
noncomputable def inverseRadialFilterBank (E : Env) (b : ℕ → ℕ → Option ℂ)
    (N : ℕ) (r j : ℕ) : Option ℂ :=
  (radialFiltersBank E b N r j).map (fun z => 1 / z)

/-- The regularization dispatch of lines 95-100, element-wise: soft and hard
limiting act on the inverted bank; Tikhonov regularization acts on the
un-inverted forward response. The `invalid` kind never reaches this point
because `radial_filters_ema` raises instead. -/
noncomputable def regularizedBank (E : Env) (f : ℕ → ℝ) (args : DesignArgs)
    (N F : ℕ) (r j : ℕ) : Option ℂ :=
  let b := bPatched E f args.R args.hankel_type F
  match args.regularization_type with
  | RegType.tikhonov => (radialFiltersBank E b N r j).map (tikhonovEl args.limit_dB)
  | ty => (inverseRadialFilterBank E b N r j).map (limitingEl ty args.limit_dB)

/-- The regularized inverse bank after the second NaN substitution of
lines 105-109. -/
noncomputable def patchedInverseBank (E : Env) (f : ℕ → ℝ) (args : DesignArgs)
    (N F : ℕ) (r j : ℕ) : Option ℂ :=
  nanPatch (fun j2 => regularizedBank E f args N F r j2) F j

/-- Output length of `scipy.fft.irfft` for `F` input bins. -/
def irfftLen (F : ℕ) : ℕ := 2 * (F - 1)

/-- Embedding of `radial_filters_ema` (ema_radial_filters.py): argument validation, radial
filter synthesis, regularized inversion with NaN substitution, inverse FFT
and causal cyclic time shift by half the filter length.  The
invalid-regularization error of line 102 is raised after the numeric work,
as in the code; no partial result is ever produced. -/
noncomputable def radial_filters_ema (E : Env) (f : ℕ → ℝ) (F : ℕ)
    (args : DesignArgs) (N : ℕ) : Except String Signal :=
  if !args.R_isNumber then
    .error "R must be a single value"
  else if !args.limit_isNumber then
    .error "limit_dB must be a single value"
  else if args.hankel_type ≠ 1 ∧ args.hankel_type ≠ 2 then
    .error "hankel_type must be 1 or 2 (for first or second kind hankel function)"
  else
    match args.regularization_type with
    | RegType.invalid =>
        .error "Invalid regularization type. Choose soft, hard or tikhonov."
    | _ =>
        let sig : Signal :=
          { channels := 2 * N + 1
            n_samples := irfftLen F
            sampling_rate := args.sampling_rate
            time := fun r => E.irfft (fun j => patchedInverseBank E f args N F r j) F }
        .ok (E.fractional_time_shift sig ((sig.n_samples : ℝ) / 2) ShiftMode.cyclic)

/-- The spec's claimed validation condition for `DesignRadialFilters`:
`R` a single finite positive numeric scalar, `limit_dB` a numeric scalar,
Hankel kind in {1,2}, regularization kind in {soft, hard, tikhonov}. -/
def specValidationOK (args : DesignArgs) : Prop :=
  args.R_isNumber = true ∧ args.R_isFinite = true ∧ 0 < args.R ∧
  args.limit_isNumber = true ∧
  (args.hankel_type = 1 ∨ args.hankel_type = 2) ∧
  args.regularization_type ≠ RegType.invalid

/-- A trivial concrete collaborator environment for witnesses. -/
def envZero : Env where
  jn := fun _ _ => 0
  yn := fun _ _ => 0
  sph_harm := fun _ _ => 1
  irfft := fun _ _ _ => 0
  fractional_time_shift := fun s _ _ => s

/-- A call with a numeric but negative radius and all the other arguments
valid: the code raises no error on it. -/
def argsNegativeR : DesignArgs where
  R_isNumber := true
  R_isFinite := true
  R := -1
  limit_isNumber := true
  limit_dB := 40
  hankel_type := 2
  regularization_type := RegType.soft
  sampling_rate := 48000

/-- A constant all-ones float bank, for the C4 witness. -/
def onesBank : ℕ → ℕ → Option ℂ := fun _ _ => some 1

/-- A fully valid argument record (Tikhonov regularization), for witnesses. -/
def argsValidTikhonov : DesignArgs where
  R_isNumber := true
  R_isFinite := true
  R := 1
  limit_isNumber := true
  limit_dB := 40
  hankel_type := 2
  regularization_type := RegType.tikhonov
  sampling_rate := 48000

/-! ## get_soundfield_coeffs_from_ema.py -/

/-- Circular-harmonic surface projection `s_surf_m` (lines 22-40): the three
loops of Eq. 8 write row `m + N` for each degree `m` in `[-N, N]`, so row `r`
holds the degree `m = r - N` sums. -/
noncomputable def s_surf_m (signals : Signal) (alpha : ℕ → ℝ) (N : ℕ)
    (r t : ℕ) : ℝ :=
  let m : ℤ := (r : ℤ) - N
  if m < 0 then
    (∑ i in Finset.range signals.channels,
      signals.time i t * Real.sqrt 2 * Real.sin ((m.natAbs : ℝ) * alpha i)) /
      (signals.channels : ℝ)
  else if m = 0 then
    (∑ i in Finset.range signals.channels, signals.time i t) /
      (signals.channels : ℝ)
  else
    (∑ i in Finset.range signals.channels,
      signals.time i t * Real.sqrt 2 * Real.cos ((m : ℝ) * alpha i)) /
      (signals.channels : ℝ)

/-- Entry `t` of `scipy.signal.oaconvolve(data, b, mode='full')`, the full
linear convolution of `data` (length `Ta`) with `b` (length `Tb`). -/
noncomputable def oaconvolve_full (data : ℕ → ℝ) (Ta : ℕ) (b : ℕ → ℝ)
    (Tb : ℕ) (t : ℕ) : ℝ :=
  ∑ l in Finset.range Ta, data l * (if l ≤ t ∧ t - l < Tb then b (t - l) else 0)

/-- The truncation index of line 55:
`out_full.shape[-1] - radial_filters.n_samples + 1`, where the full
convolution has `signals.n_samples + radial_filters.n_samples - 1` samples. -/
def s_sh_idx (signals radial_filters : Signal) : ℕ :=
  (signals.n_samples + radial_filters.n_samples - 1) - radial_filters.n_samples + 1

/-- The filtered circular-harmonic mode signals `s_sh` (lines 46-56): each
row is the full convolution of the matching surface row with the matching
radial-filter row, truncated to its leading `s_sh_idx` samples (the array is
preallocated with zeros). -/
noncomputable def s_sh (signals radial_filters : Signal) (alpha : ℕ → ℝ)
    (N : ℕ) (r t : ℕ) : ℝ :=
  if t < s_sh_idx signals radial_filters then
    oaconvolve_full (s_surf_m signals alpha N r) signals.n_samples
      (radial_filters.time r) radial_filters.n_samples t
  else 0

/-- The order `n` of ACN channel `c = n^2 + n + m`. -/
def chanOrder (c : ℕ) : ℕ := Nat.sqrt c

/-- The degree `m` of ACN channel `c = n^2 + n + m`. -/
def chanDegree (c : ℕ) : ℤ := (c : ℤ) - (chanOrder c : ℤ) ^ 2 - chanOrder c

/-- Embedding of `get_sh_soundfield_coeffs_ema` (lines 15-69): circular-harmonic
projection, per-mode radial filtering by truncated full convolution, and
expansion into `(N+1)^2` ambisonic channels (lines 60-67): channel
`n^2 + n + m` is the degree-`m` filtered signal times
`(-1)^m * sph_harm(|m|, n, 0, pi/2)`, the harmonic value cast into the real
output array (keeping its real part).  `Y m n` models
`scipy.special.sph_harm(m, n, 0, np.pi/2)`. -/
noncomputable def get_sh_soundfield_coeffs_ema (Y : ℤ → ℕ → ℂ)
    (signals radial_filters : Signal) (N : ℕ) (alpha : ℕ → ℝ) : Signal :=
  { channels := (N + 1) ^ 2
    n_samples := signals.n_samples
    sampling_rate := signals.sampling_rate
    time := fun c t =>
      if c < (N + 1) ^ 2 ∧ t < signals.n_samples then
        s_sh signals radial_filters alpha N (chanDegree c + N).toNat t *
          ((-1 : ℝ) ^ chanDegree c * (Y ((chanDegree c).natAbs : ℤ) (chanOrder c)).re)
      else 0 }

/-- A one-channel, one-sample, all-zero input signal, for witnesses. -/
def sigOne : Signal where
  channels := 1
  n_samples := 1
  sampling_rate := 48000
  time := fun _ _ => 0

/-- A three-row, one-sample, all-zero radial filter bank, for witnesses. -/
def filtOne : Signal where
  channels := 3
  n_samples := 1
  sampling_rate := 48000
  time := fun _ _ => 0

/-! ## Theorems -/

theorem spherical_hankel_function_ok (jn yn : ℕ → ℝ → ℝ) (nu : ℕ) (k : ℤ)
    (z : ℝ) (hk : k = 1 ∨ k = 2) :
    spherical_hankel_function jn yn nu k z = .ok (hankelValue jn yn k nu z) := by
  unfold spherical_hankel_function hankelValue
  rw [if_pos hk]

/-- The linear gain ceiling is strictly positive. -/
theorem limitLinear_pos (limit_db : ℝ) : 0 < limitLinear limit_db :=
  Real.rpow_pos_of_pos (by norm_num) _

/-- C5: for every order `n ≥ 0`, kind `k ∈ {1,2}` and argument `z`, the
spherical-Hankel derivative returned by the engine equals `-h_1(z)` for
`n = 0` and `[n*h_(n-1)(z) - (n+1)*h_(n+1)(z)] / (2n+1)` for `n ≥ 1`,
where `h_n(z) = j_n(z) + i*sign*y_n(z)` with `sign = +1` for kind 1 and
`-1` for kind 2. -/
theorem C5_hankel_derivative (jn yn : ℕ → ℝ → ℝ) (n : ℕ) (k : ℤ) (z : ℝ)
    (hk : k = 1 ∨ k = 2) :
    derivative_sph_hankel jn yn n k z =
      .ok (if n = 0 then -(hankelValue jn yn k 1 z)
           else ((n : ℂ) * hankelValue jn yn k (n - 1) z -
                 ((n : ℂ) + 1) * hankelValue jn yn k (n + 1) z) /
                (2 * (n : ℂ) + 1)) := by
  unfold derivative_sph_hankel
  by_cases hn : n = 0
  · rw [if_pos hn, if_pos hn, spherical_hankel_function_ok jn yn 1 k z hk]
    rfl
  · rw [if_neg hn, if_neg hn, spherical_hankel_function_ok jn yn (n - 1) k z hk,
      spherical_hankel_function_ok jn yn (n + 1) k z hk]
    show Except.ok _ = Except.ok _
    rw [one_div_mul_eq_div]

/-- Witness for C5 at `n = 2`, `k = 1`, `z = 0`, zero Bessel collaborators. -/
theorem C5_hankel_derivative_witness :
    ((1 : ℤ) = 1 ∨ (1 : ℤ) = 2) ∧
    derivative_sph_hankel (fun _ _ => 0) (fun _ _ => 0) 2 1 0 =
      .ok (if 2 = 0 then -(hankelValue (fun _ _ => 0) (fun _ _ => 0) 1 1 0)
           else (((2 : ℕ) : ℂ) * hankelValue (fun _ _ => 0) (fun _ _ => 0) 1 (2 - 1) 0 -
                 (((2 : ℕ) : ℂ) + 1) * hankelValue (fun _ _ => 0) (fun _ _ => 0) 1 (2 + 1) 0) /
                (2 * ((2 : ℕ) : ℂ) + 1)) :=
  ⟨Or.inl rfl,
   C5_hankel_derivative (fun _ _ => 0) (fun _ _ => 0) 2 1 0 (Or.inl rfl)⟩

/-- C2: with `L = 10^(limitDecibels/20)`, every element of the hard-limited
array has magnitude at most `L`, and every element of the soft-limited array
has magnitude strictly below `L`. -/
theorem C2_limiting_bound {ι : Type} (data : ι → ℂ) (limit_db : ℝ) (i : ι) :
    Complex.abs (limiting data RegType.hard limit_db i) ≤ limitLinear limit_db ∧
    Complex.abs (limiting data RegType.soft limit_db i) < limitLinear limit_db := by
  have hL : 0 < limitLinear limit_db := limitLinear_pos limit_db
  have hpi : (0 : ℝ) < Real.pi := Real.pi_pos
  constructor
  · show Complex.abs (limitingEl RegType.hard limit_db (data i)) ≤ _
    unfold limitingEl
    simp only [reduceCtorEq, if_false, if_true, reduceIte]
    by_cases h : Complex.abs (data i) > limitLinear limit_db
    · rw [if_pos h]
      have hz : data i ≠ 0 := by
        intro h0
        rw [h0] at h
        simp at h
        exact absurd h (not_lt.mpr hL.le)
      have habs : Complex.abs (data i) ≠ 0 := by
        simpa using (Complex.abs.ne_zero hz)
      rw [map_mul, map_div₀, Complex.abs_ofReal, Complex.abs_ofReal,
        abs_of_nonneg (Complex.abs.nonneg _), abs_of_nonneg hL.le,
        div_self habs, one_mul]
    · rw [if_neg h]
      exact not_lt.mp h
  · show Complex.abs (limitingEl RegType.soft limit_db (data i)) < _
    unfold limitingEl
    simp only [reduceIte]
    by_cases hz : data i = 0
    · rw [hz]
      simpa using hL
    · have habs : (0 : ℝ) < Complex.abs (data i) := Complex.abs.pos hz
      rw [map_mul, map_mul, map_div₀, Complex.abs_ofReal, Complex.abs_ofReal,
        Complex.abs_ofReal, abs_of_nonneg (Complex.abs.nonneg _),
        div_self habs.ne.symm]
      have harg : 0 ≤ Real.pi / (2 * limitLinear limit_db) * Complex.abs (data i) :=
        mul_nonneg (div_nonneg hpi.le (by linarith)) habs.le
      have hat : |Real.arctan (Real.pi / (2 * limitLinear limit_db) * Complex.abs (data i))| <
          Real.pi / 2 := by
        have hnn : (0 : ℝ) ≤
            Real.arctan (Real.pi / (2 * limitLinear limit_db) * Complex.abs (data i)) := by
          rw [← Real.arctan_zero]
          exact Real.arctan_strictMono.monotone harg
        rw [abs_of_nonneg hnn]
        exact Real.arctan_lt_pi_div_two _
      have hc1 : |2 * limitLinear limit_db / Real.pi| = 2 * limitLinear limit_db / Real.pi := by
        apply abs_of_nonneg
        positivity
      rw [hc1, mul_one]
      calc 2 * limitLinear limit_db / Real.pi *
            |Real.arctan (Real.pi / (2 * limitLinear limit_db) * Complex.abs (data i))|
          < 2 * limitLinear limit_db / Real.pi * (Real.pi / 2) := by
            apply mul_lt_mul_of_pos_left hat
            positivity
        _ = limitLinear limit_db := by
            field_simp

/-- C7: hard limiting leaves an element of magnitude at most `L` unchanged,
and maps an element of magnitude above `L` to the element rescaled by the
positive real factor `L/|z|`, so its magnitude is exactly `L` and its phase
is preserved. -/
theorem C7_hard_limit_cases {ι : Type} (data : ι → ℂ) (limit_db : ℝ) (i : ι) :
    (Complex.abs (data i) ≤ limitLinear limit_db →
      limiting data RegType.hard limit_db i = data i) ∧
    (limitLinear limit_db < Complex.abs (data i) →
      Complex.abs (limiting data RegType.hard limit_db i) = limitLinear limit_db ∧
      limiting data RegType.hard limit_db i =
        Complex.ofReal (limitLinear limit_db / Complex.abs (data i)) * data i ∧
      0 < limitLinear limit_db / Complex.abs (data i)) := by
  have hL : 0 < limitLinear limit_db := limitLinear_pos limit_db
  constructor
  · intro hle
    show limitingEl RegType.hard limit_db (data i) = data i
    unfold limitingEl
    simp only [reduceCtorEq, if_false, reduceIte]
    rw [if_neg (not_lt.mpr hle)]
  · intro hgt
    have hz : data i ≠ 0 := by
      intro h0
      rw [h0] at hgt
      simp at hgt
      exact absurd hgt (not_lt.mpr hL.le)
    have habs : (0 : ℝ) < Complex.abs (data i) := Complex.abs.pos hz
    have heq : limiting data RegType.hard limit_db i =
        data i / Complex.ofReal (Complex.abs (data i)) * Complex.ofReal (limitLinear limit_db) := by
      show limitingEl RegType.hard limit_db (data i) = _
      unfold limitingEl
      simp only [reduceCtorEq, if_false, reduceIte]
      rw [if_pos hgt]
    refine ⟨?_, ?_, div_pos hL habs⟩
    · rw [heq, map_mul, map_div₀, Complex.abs_ofReal, Complex.abs_ofReal,
        abs_of_nonneg (Complex.abs.nonneg _), abs_of_nonneg hL.le,
        div_self habs.ne.symm, one_mul]
    · rw [heq, Complex.ofReal_div]
      field_simp
      ring

/-- Witness for C7: at `limit_db = 0` (so `L = 1`), the element `1/2` is
left unchanged and the element `2` is rescaled to magnitude `L`. -/
theorem C7_hard_limit_cases_witness :
    (Complex.abs ((fun _ : Unit => (2 : ℂ)) ()) ≤ limitLinear 0 →
      limiting (fun _ : Unit => (2 : ℂ)) RegType.hard 0 () = (fun _ : Unit => (2 : ℂ)) ()) ∧
    (limitLinear 0 < Complex.abs ((fun _ : Unit => (2 : ℂ)) ()) →
      Complex.abs (limiting (fun _ : Unit => (2 : ℂ)) RegType.hard 0 ()) = limitLinear 0 ∧
      limiting (fun _ : Unit => (2 : ℂ)) RegType.hard 0 () =
        Complex.ofReal (limitLinear 0 / Complex.abs ((fun _ : Unit => (2 : ℂ)) ())) *
          (fun _ : Unit => (2 : ℂ)) () ∧
      0 < limitLinear 0 / Complex.abs ((fun _ : Unit => (2 : ℂ)) ())) ∧
    limitLinear 0 < Complex.abs ((fun _ : Unit => (2 : ℂ)) ()) :=
  ⟨(C7_hard_limit_cases (fun _ : Unit => (2 : ℂ)) 0 ()).1,
   (C7_hard_limit_cases (fun _ : Unit => (2 : ℂ)) 0 ()).2,
   by
    have h1 : limitLinear 0 = 1 := by
      unfold limitLinear
      norm_num
    rw [h1, Complex.abs_two]
    norm_num⟩

theorem np_roll_neg_one (v : ℕ → Option ℂ) (F j : ℕ) :
    np_roll v F (-1) j = v ((j + 1) % F) := rfl

theorem nanPatch_spec (v : ℕ → Option ℂ) (F j : ℕ) (hj : j < F) :
    (v j = none → nanPatch v F j = nanAbs (v ((j + 1) % F))) ∧
    (∀ z : ℂ, v j = some z → nanPatch v F j = some z) ∧
    (j + 1 < F → v j = none → nanPatch v F j = nanAbs (v (j + 1))) ∧
    (j = F - 1 → v j = none → nanPatch v F j = nanAbs (v 0)) := by
  have hroll := np_roll_neg_one v F j
  refine ⟨?_, ?_, ?_, ?_⟩
  · intro hnone
    unfold nanPatch
    rw [hnone, hroll]
  · intro z hz
    unfold nanPatch
    rw [hz]
  · intro hlt hnone
    unfold nanPatch
    rw [hnone, hroll, Nat.mod_eq_of_lt hlt]
  · intro hlast hnone
    unfold nanPatch
    rw [hnone, hroll]
    have hF : 1 ≤ F := Nat.one_le_of_lt (Nat.lt_of_le_of_lt (Nat.zero_le j) hj)
    have : (j + 1) % F = 0 := by
      rw [hlast, Nat.sub_add_cancel hF, Nat.mod_self]
    rw [this]

/-- C6: every NaN entry of the per-order term bank `b_n` and every NaN entry
of the regularized inverse mode filter bank is replaced by the magnitude of
the entry at the next-higher frequency bin with circular wraparound (the last
bin is patched from bin 0), and all non-NaN entries are left unchanged. -/
theorem C6_nan_substitution (E : Env) (f : ℕ → ℝ) (args : DesignArgs)
    (N F : ℕ) (n r j : ℕ) (hj : j < F) :
    (bTerm E f args.R args.hankel_type n j = none →
      bPatched E f args.R args.hankel_type F n j =
        nanAbs (bTerm E f args.R args.hankel_type n ((j + 1) % F))) ∧
    (∀ z : ℂ, bTerm E f args.R args.hankel_type n j = some z →
      bPatched E f args.R args.hankel_type F n j = some z) ∧
    (j = F - 1 → bTerm E f args.R args.hankel_type n j = none →
      bPatched E f args.R args.hankel_type F n j =
        nanAbs (bTerm E f args.R args.hankel_type n 0)) ∧
    (regularizedBank E f args N F r j = none →
      patchedInverseBank E f args N F r j =
        nanAbs (regularizedBank E f args N F r ((j + 1) % F))) ∧
    (∀ z : ℂ, regularizedBank E f args N F r j = some z →
      patchedInverseBank E f args N F r j = some z) ∧
    (j = F - 1 → regularizedBank E f args N F r j = none →
      patchedInverseBank E f args N F r j =
        nanAbs (regularizedBank E f args N F r 0)) := by
  obtain ⟨hb1, hb2, _, hb4⟩ := nanPatch_spec (bTerm E f args.R args.hankel_type n) F j hj
  obtain ⟨hr1, hr2, _, hr4⟩ :=
    nanPatch_spec (fun j2 => regularizedBank E f args N F r j2) F j hj
  exact ⟨hb1, hb2, hb4, hr1, hr2, hr4⟩

/-- Witness for C6 at bin 0 of a one-bin grid on a concrete valid call. -/
theorem C6_nan_substitution_witness :
    (0 < 1) ∧
    ((bTerm envZero (fun _ => 0) argsValidTikhonov.R argsValidTikhonov.hankel_type 0 0 = none →
      bPatched envZero (fun _ => 0) argsValidTikhonov.R argsValidTikhonov.hankel_type 1 0 0 =
        nanAbs (bTerm envZero (fun _ => 0) argsValidTikhonov.R argsValidTikhonov.hankel_type 0
          ((0 + 1) % 1))) ∧
    (∀ z : ℂ,
      bTerm envZero (fun _ => 0) argsValidTikhonov.R argsValidTikhonov.hankel_type 0 0 = some z →
      bPatched envZero (fun _ => 0) argsValidTikhonov.R argsValidTikhonov.hankel_type 1 0 0 =
        some z) ∧
    (0 = 1 - 1 →
      bTerm envZero (fun _ => 0) argsValidTikhonov.R argsValidTikhonov.hankel_type 0 0 = none →
      bPatched envZero (fun _ => 0) argsValidTikhonov.R argsValidTikhonov.hankel_type 1 0 0 =
        nanAbs (bTerm envZero (fun _ => 0) argsValidTikhonov.R argsValidTikhonov.hankel_type 0 0)) ∧
    (regularizedBank envZero (fun _ => 0) argsValidTikhonov 0 1 0 0 = none →
      patchedInverseBank envZero (fun _ => 0) argsValidTikhonov 0 1 0 0 =
        nanAbs (regularizedBank envZero (fun _ => 0) argsValidTikhonov 0 1 0 ((0 + 1) % 1))) ∧
    (∀ z : ℂ, regularizedBank envZero (fun _ => 0) argsValidTikhonov 0 1 0 0 = some z →
      patchedInverseBank envZero (fun _ => 0) argsValidTikhonov 0 1 0 0 = some z) ∧
    (0 = 1 - 1 → regularizedBank envZero (fun _ => 0) argsValidTikhonov 0 1 0 0 = none →
      patchedInverseBank envZero (fun _ => 0) argsValidTikhonov 0 1 0 0 =
        nanAbs (regularizedBank envZero (fun _ => 0) argsValidTikhonov 0 1 0 0))) :=
  ⟨by decide,
   C6_nan_substitution envZero (fun _ => 0) argsValidTikhonov 0 1 0 0 0 (by decide)⟩

/-- C1 counterexample: on a call whose radius is the numeric scalar `-1`
(violating the spec condition that `R` be positive, with every other
condition satisfied), `radial_filters_ema` raises no error, so the claimed
equivalence between raising and violating the four spec conditions fails. -/
theorem C1_counterexample :
    ¬(((radial_filters_ema envZero (fun _ => 0) 1 argsNegativeR 0).isOk = false) ↔
        ¬specValidationOK argsNegativeR) := by
  intro h
  have hok : (radial_filters_ema envZero (fun _ => 0) 1 argsNegativeR 0).isOk = true := rfl
  have hnotvalid : ¬specValidationOK argsNegativeR := by
    intro hv
    have hpos := hv.2.2.1
    norm_num [argsNegativeR] at hpos
  have hfalse := h.mpr hnotvalid
  rw [hok] at hfalse
  exact absurd hfalse (by decide)

/-- C1 (amended): an invalid-argument error is raised, with no result
produced, iff `R` is not a numeric scalar, or `limit_dB` is not a numeric
scalar, or the Hankel kind is not in {1,2}, or the regularization kind is not
in {soft, hard, tikhonov}; finiteness and positivity of `R` are not checked. -/
theorem C1_validation_iff (E : Env) (f : ℕ → ℝ) (F : ℕ) (args : DesignArgs)
    (N : ℕ) :
    (radial_filters_ema E f F args N).isOk = false ↔
      (args.R_isNumber = false ∨ args.limit_isNumber = false ∨
       (args.hankel_type ≠ 1 ∧ args.hankel_type ≠ 2) ∨
       args.regularization_type = RegType.invalid) := by
  obtain ⟨rN, rF, R, lN, ldb, ht, rt, sr⟩ := args
  unfold radial_filters_ema
  cases rN <;> cases lN <;>
    by_cases hht : ht ≠ 1 ∧ ht ≠ 2 <;> cases rt <;>
      simp [hht, Except.isOk, Except.toBool]

theorem foldl_ocAdd_some (g : ℕ → ℂ) (l : List ℕ) (a : ℂ) :
    l.foldl (fun acc n => ocAdd acc (some (g n))) (some a) =
      some (a + (l.map g).sum) := by
  induction l generalizing a with
  | nil => simp
  | cons x xs ih =>
      simp only [List.foldl_cons, List.map_cons, List.sum_cons]
      rw [show ocAdd (some a) (some (g x)) = some (a + g x) from rfl, ih,
        add_assoc]

theorem sum_map_range' (g : ℕ → ℂ) (s n : ℕ) :
    ((List.range' s n).map g).sum = ∑ i in Finset.Ico s (s + n), g i := by
  induction n generalizing s with
  | zero => simp
  | succ k ih =>
      rw [show List.range' s (k + 1) = s :: List.range' (s + 1) k from rfl,
        List.map_cons, List.sum_cons, ih (s + 1)]
      rw [Finset.sum_eq_sum_Ico_succ_bot (by omega : s < s + (k + 1))]
      have harg : s + (k + 1) = s + 1 + k := by omega
      rw [harg]

/-- C4: for a degree `m` with `|m| ≤ N` and a bin `j` where every order's
`b` entry is the number `c n_prime`, the forward response stored at circular
row `m + N` is the sum over orders `n_prime` from `|m|` to `N` of
`b[n_prime] * sph_harm(m, n_prime, 0, pi/2)^2`, and the inverse mode filter
bank entry is its element-wise reciprocal. -/
theorem C4_forward_response (E : Env) (b : ℕ → ℕ → Option ℂ) (N : ℕ) (m : ℤ)
    (j : ℕ) (hmN : m.natAbs ≤ N) (c : ℕ → ℂ)
    (hb : ∀ n_prime, b n_prime j = some (c n_prime)) :
    radialFiltersBank E b N (m + N).toNat j =
      some (∑ n_prime in Finset.Icc m.natAbs N, c n_prime * E.sph_harm m n_prime ^ 2) ∧
    inverseRadialFilterBank E b N (m + N).toNat j =
      some (1 / ∑ n_prime in Finset.Icc m.natAbs N, c n_prime * E.sph_harm m n_prime ^ 2) := by
  have hrow : (((m + N).toNat : ℤ) - N) = m := by omega
  have hbank : radialFiltersBank E b N (m + N).toNat j =
      some (∑ n_prime in Finset.Icc m.natAbs N, c n_prime * E.sph_harm m n_prime ^ 2) := by
    unfold radialFiltersBank
    rw [hrow]
    unfold modeRowAccum
    have hfun : (fun (acc : Option ℂ) n_prime =>
        ocAdd acc (ocMul (b n_prime j) (some (E.sph_harm m n_prime ^ 2)))) =
        fun acc n_prime => ocAdd acc (some (c n_prime * E.sph_harm m n_prime ^ 2)) := by
      funext acc n_prime
      rw [hb n_prime]
      rfl
    rw [hfun, foldl_ocAdd_some, sum_map_range', zero_add]
    have hspan : m.natAbs + (N + 1 - m.natAbs) = N + 1 := by omega
    rw [hspan, Nat.Ico_succ_right]
  refine ⟨hbank, ?_⟩
  unfold inverseRadialFilterBank
  rw [hbank]
  rfl

/-- Witness for C4 at `N = 1`, `m = 0`, `j = 0`, with unit `b` entries and
the trivial environment. -/
theorem C4_forward_response_witness :
    ((0 : ℤ).natAbs ≤ 1) ∧
    (∀ n_prime, onesBank n_prime 0 = some ((fun _ : ℕ => (1 : ℂ)) n_prime)) ∧
    (radialFiltersBank envZero onesBank 1 ((0 : ℤ) + 1).toNat 0 =
      some (∑ n_prime in Finset.Icc (0 : ℤ).natAbs 1,
        (fun _ : ℕ => (1 : ℂ)) n_prime * envZero.sph_harm 0 n_prime ^ 2) ∧
     inverseRadialFilterBank envZero onesBank 1 ((0 : ℤ) + 1).toNat 0 =
      some (1 / ∑ n_prime in Finset.Icc (0 : ℤ).natAbs 1,
        (fun _ : ℕ => (1 : ℂ)) n_prime * envZero.sph_harm 0 n_prime ^ 2)) :=
  ⟨by decide, fun _ => rfl,
   C4_forward_response envZero onesBank 1 0 0 (by decide) (fun _ => 1)
     (fun _ => rfl)⟩

/-- C9: on every valid call, the returned time-domain filter bank is exactly
the per-mode inverse real FFT of the regularized inverse filter bank,
fractionally time-shifted by half the filter length (`T/2` samples) in
cyclic wraparound mode, with no further modification. -/
theorem C9_causal_shift (E : Env) (f : ℕ → ℝ) (F : ℕ) (args : DesignArgs)
    (N : ℕ) (h1 : args.R_isNumber = true) (h2 : args.limit_isNumber = true)
    (h3 : args.hankel_type = 1 ∨ args.hankel_type = 2)
    (h4 : args.regularization_type ≠ RegType.invalid) :
    radial_filters_ema E f F args N =
      .ok (E.fractional_time_shift
        { channels := 2 * N + 1
          n_samples := irfftLen F
          sampling_rate := args.sampling_rate
          time := fun r => E.irfft (fun j => patchedInverseBank E f args N F r j) F }
        ((irfftLen F : ℝ) / 2) ShiftMode.cyclic) := by
  have hht : ¬(args.hankel_type ≠ 1 ∧ args.hankel_type ≠ 2) := by
    rcases h3 with h | h <;> simp [h]
  unfold radial_filters_ema
  rw [h1, h2]
  cases hrt : args.regularization_type with
  | invalid => exact absurd hrt h4
  | soft => simp [hht]
  | hard => simp [hht]
  | tikhonov => simp [hht]

/-- Witness for C9 on a concrete valid call. -/
theorem C9_causal_shift_witness :
    (argsValidTikhonov.R_isNumber = true) ∧
    (argsValidTikhonov.limit_isNumber = true) ∧
    (argsValidTikhonov.hankel_type = 1 ∨ argsValidTikhonov.hankel_type = 2) ∧
    (argsValidTikhonov.regularization_type ≠ RegType.invalid) ∧
    radial_filters_ema envZero (fun _ => 0) 2 argsValidTikhonov 1 =
      .ok (envZero.fractional_time_shift
        { channels := 2 * 1 + 1
          n_samples := irfftLen 2
          sampling_rate := argsValidTikhonov.sampling_rate
          time := fun r =>
            envZero.irfft (fun j => patchedInverseBank envZero (fun _ => 0) argsValidTikhonov 1 2 r j) 2 }
        ((irfftLen 2 : ℝ) / 2) ShiftMode.cyclic) :=
  ⟨rfl, rfl, Or.inr rfl, by decide,
   C9_causal_shift envZero (fun _ => 0) 2 argsValidTikhonov 1 rfl rfl
     (Or.inr rfl) (by decide)⟩

theorem chan_decode (n N : ℕ) (m : ℤ) (hm : m.natAbs ≤ n) (hn : n ≤ N) :
    chanOrder ((n : ℤ) ^ 2 + n + m).toNat = n ∧
    chanDegree ((n : ℤ) ^ 2 + n + m).toNat = m ∧
    ((n : ℤ) ^ 2 + n + m).toNat < (N + 1) ^ 2 := by
  have hmn : -(n : ℤ) ≤ m ∧ m ≤ n := by omega
  have h0 : 0 ≤ (n : ℤ) ^ 2 + n + m := by nlinarith [sq_nonneg (n : ℤ)]
  have hc : ((((n : ℤ) ^ 2 + n + m).toNat : ℤ)) = (n : ℤ) ^ 2 + n + m :=
    Int.toNat_of_nonneg h0
  have hlow : n * n ≤ ((n : ℤ) ^ 2 + n + m).toNat := by
    zify
    rw [hc]
    nlinarith [hmn.1]
  have hhigh : ((n : ℤ) ^ 2 + n + m).toNat < (n + 1) * (n + 1) := by
    zify
    rw [hc]
    nlinarith [hmn.2]
  have horder : chanOrder ((n : ℤ) ^ 2 + n + m).toNat = n := by
    unfold chanOrder
    exact (Nat.eq_sqrt.mpr ⟨hlow, hhigh⟩).symm
  refine ⟨horder, ?_, ?_⟩
  · unfold chanDegree
    rw [horder, hc]
    ring
  · have h2 : ((n : ℕ) + 1) ^ 2 = (n + 1) * (n + 1) := pow_two (n + 1)
    calc ((n : ℤ) ^ 2 + n + m).toNat < (n + 1) ^ 2 := by rw [h2]; exact hhigh
      _ ≤ (N + 1) ^ 2 := Nat.pow_le_pow_left (by omega) 2

theorem decode_time_value (Y : ℤ → ℕ → ℂ) (signals radial_filters : Signal)
    (N : ℕ) (alpha : ℕ → ℝ) (n : ℕ) (m : ℤ) (hn : n ≤ N) (hm : m.natAbs ≤ n)
    (t : ℕ) (ht : t < signals.n_samples) :
    (get_sh_soundfield_coeffs_ema Y signals radial_filters N alpha).time
        ((n : ℤ) ^ 2 + n + m).toNat t =
      s_sh signals radial_filters alpha N (m + N).toNat t *
        ((-1 : ℝ) ^ m * (Y (m.natAbs : ℤ) n).re) := by
  obtain ⟨ho, hd, hlt⟩ := chan_decode n N m hm hn
  show (if _ ∧ _ then _ else _) = _
  rw [if_pos ⟨hlt, ht⟩, ho, hd]

theorem decode_time_outside (Y : ℤ → ℕ → ℂ) (signals radial_filters : Signal)
    (N : ℕ) (alpha : ℕ → ℝ) (c t : ℕ) (ht : signals.n_samples ≤ t) :
    (get_sh_soundfield_coeffs_ema Y signals radial_filters N alpha).time c t = 0 := by
  show (if _ ∧ _ then _ else _) = 0
  rw [if_neg]
  intro hand
  exact absurd hand.2 (not_lt.mpr ht)

/-- C3: the decoded ambisonic signal set has `(N+1)^2` channels, the input's
sample count and sampling rate, the filtered mode signals are truncated to
the leading `len(full) - T + 1 = T_in` samples of the full convolution, and
channel `n^2 + n + m` equals the degree-`m` filtered circular-harmonic
signal times `(-1)^m * Y_n^{|m|}(pi/2, 0)`. -/
theorem C3_decode_shape_values (Y : ℤ → ℕ → ℂ) (signals radial_filters : Signal)
    (N : ℕ) (alpha : ℕ → ℝ) (hT : 1 ≤ signals.n_samples) :
    (get_sh_soundfield_coeffs_ema Y signals radial_filters N alpha).channels =
      (N + 1) ^ 2 ∧
    (get_sh_soundfield_coeffs_ema Y signals radial_filters N alpha).n_samples =
      signals.n_samples ∧
    (get_sh_soundfield_coeffs_ema Y signals radial_filters N alpha).sampling_rate =
      signals.sampling_rate ∧
    s_sh_idx signals radial_filters = signals.n_samples ∧
    (∀ n, n ≤ N → ∀ m : ℤ, m.natAbs ≤ n → ∀ t, t < signals.n_samples →
      (get_sh_soundfield_coeffs_ema Y signals radial_filters N alpha).time
          ((n : ℤ) ^ 2 + n + m).toNat t =
        s_sh signals radial_filters alpha N (m + N).toNat t *
          ((-1 : ℝ) ^ m * (Y (m.natAbs : ℤ) n).re)) := by
  refine ⟨rfl, rfl, rfl, ?_, ?_⟩
  · unfold s_sh_idx
    omega
  · intro n hn m hm t ht
    exact decode_time_value Y signals radial_filters N alpha n m hn hm t ht

/-- Witness for C3 on a concrete one-sample input. -/
theorem C3_decode_shape_values_witness :
    (1 ≤ sigOne.n_samples) ∧
    ((get_sh_soundfield_coeffs_ema (fun _ _ => 1) sigOne filtOne 1 (fun _ => 0)).channels =
      (1 + 1) ^ 2 ∧
    (get_sh_soundfield_coeffs_ema (fun _ _ => 1) sigOne filtOne 1 (fun _ => 0)).n_samples =
      sigOne.n_samples ∧
    (get_sh_soundfield_coeffs_ema (fun _ _ => 1) sigOne filtOne 1 (fun _ => 0)).sampling_rate =
      sigOne.sampling_rate ∧
    s_sh_idx sigOne filtOne = sigOne.n_samples ∧
    (∀ n, n ≤ 1 → ∀ m : ℤ, m.natAbs ≤ n → ∀ t, t < sigOne.n_samples →
      (get_sh_soundfield_coeffs_ema (fun _ _ => 1) sigOne filtOne 1 (fun _ => 0)).time
          ((n : ℤ) ^ 2 + n + m).toNat t =
        s_sh sigOne filtOne (fun _ => 0) 1 (m + 1).toNat t *
          ((-1 : ℝ) ^ m * ((fun _ _ => (1 : ℂ)) (m.natAbs : ℤ) n).re))) :=
  ⟨Nat.le_refl 1,
   C3_decode_shape_values (fun _ _ => 1) sigOne filtOne 1 (fun _ => 0) (Nat.le_refl 1)⟩

/-- C8: the circular-harmonic projection row of degree `m` at sample `t` is
`(1/M) * sum_i x_i(t) * sqrt(2) * sin(|m| * alpha_i)` for `m < 0`,
`(1/M) * sum_i x_i(t)` for `m = 0`, and
`(1/M) * sum_i x_i(t) * sqrt(2) * cos(m * alpha_i)` for `m > 0`. -/
theorem C8_surface_projection (signals : Signal) (alpha : ℕ → ℝ) (N : ℕ)
    (m : ℤ) (t : ℕ) (hmN : m.natAbs ≤ N) :
    (m < 0 →
      s_surf_m signals alpha N (m + N).toNat t =
        (1 / (signals.channels : ℝ)) *
          ∑ i in Finset.range signals.channels,
            signals.time i t * Real.sqrt 2 * Real.sin ((m.natAbs : ℝ) * alpha i)) ∧
    (m = 0 →
      s_surf_m signals alpha N (m + N).toNat t =
        (1 / (signals.channels : ℝ)) *
          ∑ i in Finset.range signals.channels, signals.time i t) ∧
    (0 < m →
      s_surf_m signals alpha N (m + N).toNat t =
        (1 / (signals.channels : ℝ)) *
          ∑ i in Finset.range signals.channels,
            signals.time i t * Real.sqrt 2 * Real.cos ((m : ℝ) * alpha i)) := by
  have hrow : (((m + N).toNat : ℤ) - N) = m := by omega
  refine ⟨?_, ?_, ?_⟩ <;> intro hsign <;>
    simp only [s_surf_m] <;> rw [hrow]
  · rw [if_pos hsign, one_div, inv_mul_eq_div]
  · rw [if_neg (by omega), if_pos hsign, one_div, inv_mul_eq_div]
  · rw [if_neg (by omega), if_neg (by omega), one_div, inv_mul_eq_div]

/-- Witness for C8 at `m = -1`, `N = 1` on the concrete one-sample input. -/
theorem C8_surface_projection_witness :
    ((-1 : ℤ).natAbs ≤ 1) ∧
    (((-1 : ℤ) < 0 →
      s_surf_m sigOne (fun _ => 0) 1 ((-1 : ℤ) + 1).toNat 0 =
        (1 / (sigOne.channels : ℝ)) *
          ∑ i in Finset.range sigOne.channels,
            sigOne.time i 0 * Real.sqrt 2 * Real.sin (((-1 : ℤ).natAbs : ℝ) * 0)) ∧
    ((-1 : ℤ) = 0 →
      s_surf_m sigOne (fun _ => 0) 1 ((-1 : ℤ) + 1).toNat 0 =
        (1 / (sigOne.channels : ℝ)) *
          ∑ i in Finset.range sigOne.channels, sigOne.time i 0) ∧
    (0 < (-1 : ℤ) →
      s_surf_m sigOne (fun _ => 0) 1 ((-1 : ℤ) + 1).toNat 0 =
        (1 / (sigOne.channels : ℝ)) *
          ∑ i in Finset.range sigOne.channels,
            sigOne.time i 0 * Real.sqrt 2 * Real.cos (((-1 : ℤ) : ℝ) * 0))) :=
  ⟨by decide, C8_surface_projection sigOne (fun _ => 0) 1 (-1) 0 (by decide)⟩

/-- C10: two ambisonic output channels that share the degree `m` are
pointwise proportional (each is the same filtered mode signal scaled by its
order's constant `(-1)^m * Y_n^{|m|}(pi/2, 0)`), and if one of them is
identically zero while its constant is nonzero, every channel of degree `m`
is identically zero. -/
theorem C10_shared_degree_channels (Y : ℤ → ℕ → ℂ)
    (signals radial_filters : Signal) (N : ℕ) (alpha : ℕ → ℝ) (m : ℤ)
    (n1 n2 : ℕ) (h1 : m.natAbs ≤ n1) (h1N : n1 ≤ N) (h2 : m.natAbs ≤ n2)
    (h2N : n2 ≤ N) :
    (∀ t,
      (get_sh_soundfield_coeffs_ema Y signals radial_filters N alpha).time
          ((n1 : ℤ) ^ 2 + n1 + m).toNat t *
        ((-1 : ℝ) ^ m * (Y (m.natAbs : ℤ) n2).re) =
      (get_sh_soundfield_coeffs_ema Y signals radial_filters N alpha).time
          ((n2 : ℤ) ^ 2 + n2 + m).toNat t *
        ((-1 : ℝ) ^ m * (Y (m.natAbs : ℤ) n1).re)) ∧
    ((∀ t, (get_sh_soundfield_coeffs_ema Y signals radial_filters N alpha).time
          ((n1 : ℤ) ^ 2 + n1 + m).toNat t = 0) →
      (-1 : ℝ) ^ m * (Y (m.natAbs : ℤ) n1).re ≠ 0 →
      ∀ n, m.natAbs ≤ n → n ≤ N → ∀ t,
        (get_sh_soundfield_coeffs_ema Y signals radial_filters N alpha).time
          ((n : ℤ) ^ 2 + n + m).toNat t = 0) := by
  constructor
  · intro t
    by_cases ht : t < signals.n_samples
    · rw [decode_time_value Y signals radial_filters N alpha n1 m h1N h1 t ht,
        decode_time_value Y signals radial_filters N alpha n2 m h2N h2 t ht]
      ring
    · rw [decode_time_outside Y signals radial_filters N alpha _ t (not_lt.mp ht),
        decode_time_outside Y signals radial_filters N alpha _ t (not_lt.mp ht),
        zero_mul, zero_mul]
  · intro hz hk n hmn hnN t
    by_cases ht : t < signals.n_samples
    · have hz1 := hz t
      rw [decode_time_value Y signals radial_filters N alpha n1 m h1N h1 t ht] at hz1
      have hs : s_sh signals radial_filters alpha N (m + N).toNat t = 0 := by
        rcases mul_eq_zero.mp hz1 with h | h
        · exact h
        · exact absurd h hk
      rw [decode_time_value Y signals radial_filters N alpha n m hnN hmn t ht, hs,
        zero_mul]
    · exact decode_time_outside Y signals radial_filters N alpha _ t (not_lt.mp ht)

/-- Witness for C10 at degree `m = 0`, orders `0` and `1`, on the concrete
one-sample input. -/
theorem C10_shared_degree_channels_witness :
    ((0 : ℤ).natAbs ≤ 0) ∧ (0 ≤ 1) ∧ ((0 : ℤ).natAbs ≤ 1) ∧ (1 ≤ 1) ∧
    ((∀ t,
      (get_sh_soundfield_coeffs_ema (fun _ _ => 1) sigOne filtOne 1 (fun _ => 0)).time
          (((0 : ℕ) : ℤ) ^ 2 + (0 : ℕ) + (0 : ℤ)).toNat t *
        ((-1 : ℝ) ^ (0 : ℤ) * ((fun _ _ => (1 : ℂ)) ((0 : ℤ).natAbs : ℤ) 1).re) =
      (get_sh_soundfield_coeffs_ema (fun _ _ => 1) sigOne filtOne 1 (fun _ => 0)).time
          (((1 : ℕ) : ℤ) ^ 2 + (1 : ℕ) + (0 : ℤ)).toNat t *
        ((-1 : ℝ) ^ (0 : ℤ) * ((fun _ _ => (1 : ℂ)) ((0 : ℤ).natAbs : ℤ) 0).re)) ∧
    ((∀ t, (get_sh_soundfield_coeffs_ema (fun _ _ => 1) sigOne filtOne 1 (fun _ => 0)).time
          (((0 : ℕ) : ℤ) ^ 2 + (0 : ℕ) + (0 : ℤ)).toNat t = 0) →
      (-1 : ℝ) ^ (0 : ℤ) * ((fun _ _ => (1 : ℂ)) ((0 : ℤ).natAbs : ℤ) 0).re ≠ 0 →
      ∀ n, (0 : ℤ).natAbs ≤ n → n ≤ 1 → ∀ t,
        (get_sh_soundfield_coeffs_ema (fun _ _ => 1) sigOne filtOne 1 (fun _ => 0)).time
          ((n : ℤ) ^ 2 + n + (0 : ℤ)).toNat t = 0)) :=
  ⟨Nat.le_refl 0, Nat.zero_le 1, by decide, Nat.le_refl 1,
   C10_shared_degree_channels (fun _ _ => 1) sigOne filtOne 1 (fun _ => 0) 0 0 1
     (by decide) (Nat.zero_le 1) (by decide) (Nat.le_refl 1)⟩

end Ema2Ambisonics
